import Mathlib

/-!
Verification of the sliding-window rate limiter in the lumen_backend
middleware (`rateLimiter`, `newRateLimiter`, `allow`, `cleanup`).

Times and durations are modelled as integers (Go's `time.Time` /
`time.Duration` are nanosecond counts; `t.After(s)` is `s < t` and
`now.Add(-window)` is `now - window`).  The Go map `map[string][]time.Time`
is modelled as an association list from keys to timestamp ledgers; a
missing key reads as the empty ledger (Go's nil slice) and assignment
inserts the key when absent, exactly as a Go map does.  The mutex only
serializes calls, so each `allow` call and each reaper cycle is one atomic
step of the model.
-/

namespace Lumen

abbrev Key := String

/-- Model of Go's `map[string][]time.Time`: an association list. -/
abbrev ReqMap := List (Key × List Int)

/-- Reading `m[key]` from a Go map: the first binding for `key`, or the
nil slice (empty ledger) when the key is absent. -/
def mapGet (m : ReqMap) (key : Key) : List Int :=
  match m.find? (fun p => p.1 == key) with
  | some p => p.2
  | none => []

/-- Whether a key is present in the map (Go's `_, ok := m[key]`, or what a
`len`/iteration probe observes). -/
def mapHasKey (m : ReqMap) (key : Key) : Bool :=
  m.any (fun p => p.1 == key)

/-- Writing `m[key] = v` into a Go map: overwrite the binding when present,
insert it otherwise. -/
def mapSet (m : ReqMap) (key : Key) (v : List Int) : ReqMap :=
  if m.any (fun p => p.1 == key) then
    m.map (fun p => if p.1 == key then (key, v) else p)
  else
    m ++ [(key, v)]

/-- The `rateLimiter` struct (`src/unnamed/part_001`): the key→ledger map,
the admission cap `limit`, and the `window` duration.  The mutex is not
modelled; it serializes the atomic steps below. -/
structure rateLimiter where
  requests : ReqMap
  limit : Int
  window : Int
deriving Repr, DecidableEq

/-- `newRateLimiter(limit, window)`: builds the struct with an empty map.
The Go constructor performs no validation of its arguments and always
returns the limiter (it also spawns the reaper goroutine, modelled as the
`cleanupCycle` steps below). -/
def newRateLimiter (limit : Int) (window : Int) : rateLimiter :=
  { requests := [], limit := limit, window := window }

/-- The pruning loop shared by `allow` and `cleanup`: start from the empty
slice and append every timestamp `t` with `t.After(windowStart)`. -/
def pruneLoop (windowStart : Int) (requests : List Int) : List Int :=
  requests.foldl (fun acc t => if windowStart < t then acc ++ [t] else acc) []

/-- `(rl *rateLimiter) allow(key)` at current time `now`: prune the key's
ledger to the window, reject (storing the pruned ledger) when it already
holds `limit` or more entries, otherwise append `now` and admit.  Returns
the boolean decision and the updated limiter. -/
def allow (rl : rateLimiter) (key : Key) (now : Int) : Bool × rateLimiter :=
  let windowStart := now - rl.window
  let validRequests := pruneLoop windowStart (mapGet rl.requests key)
  if rl.limit ≤ (validRequests.length : Int) then
    (false, { rl with requests := mapSet rl.requests key validRequests })
  else
    (true, { rl with requests := mapSet rl.requests key (validRequests ++ [now]) })

/-- One pass of the reaper's per-key body over the whole map: prune each
ledger, delete the key when the pruned ledger is empty, store the pruned
ledger otherwise. -/
def cleanMap (windowStart : Int) (m : ReqMap) : ReqMap :=
  m.filterMap (fun p =>
    let validRequests := pruneLoop windowStart p.2
    if validRequests.length = 0 then none else some (p.1, validRequests))

/-- One cycle of `(rl *rateLimiter) cleanup()` executed at time `now`
(the ticker body between one `Lock`/`Unlock` pair). -/
def cleanupCycle (rl : rateLimiter) (now : Int) : rateLimiter :=
  { rl with requests := cleanMap (now - rl.window) rl.requests }

/-- Run a sequence of `allow` calls for one key at the given times,
collecting the decisions and the final limiter state. -/
def allowRun (rl : rateLimiter) (key : Key) : List Int → List Bool × rateLimiter
  | [] => ([], rl)
  | t :: ts =>
      let r := allow rl key t
      let rest := allowRun r.2 key ts
      (r.1 :: rest.1, rest.2)

/-- Run a sequence of `allow` calls for possibly different keys,
collecting the decisions. -/
def allowSeq (rl : rateLimiter) : List (Key × Int) → List Bool
  | [] => []
  | (k, t) :: rest =>
      let r := allow rl k t
      r.1 :: allowSeq r.2 rest

end Lumen

namespace Lumen

/-! ### Basic lemmas about the map model -/

theorem mapGet_nil (key : Key) : mapGet [] key = [] := rfl

theorem mapGet_cons (a : Key) (ts : List Int) (m : ReqMap) (key : Key) :
    mapGet ((a, ts) :: m) key = if a == key then ts else mapGet m key := by
  by_cases h : a == key <;> simp [mapGet, List.find?, h]

theorem mapHasKey_cons (a : Key) (ts : List Int) (m : ReqMap) (key : Key) :
    mapHasKey ((a, ts) :: m) key = ((a == key) || mapHasKey m key) := by
  simp [mapHasKey]

theorem mapGet_eq_nil_of_not_mem (m : ReqMap) (key : Key)
    (h : key ∉ m.map Prod.fst) : mapGet m key = [] := by
  induction m with
  | nil => rfl
  | cons p m ih =>
      obtain ⟨a, ts⟩ := p
      rw [mapGet_cons]
      simp only [List.map_cons, List.mem_cons] at h
      push_neg at h
      have ha : (a == key) = false := by
        simp only [beq_eq_false_iff_ne, ne_eq]
        exact fun hc => h.1 (hc.symm)
      rw [ha]
      simpa using ih h.2

theorem mapGet_mapSet_self (m : ReqMap) (key : Key) (v : List Int) :
    mapGet (mapSet m key v) key = v := by
  unfold mapSet
  by_cases h : m.any (fun p => p.1 == key)
  · rw [if_pos h]
    induction m with
    | nil => simp at h
    | cons p m ih =>
        obtain ⟨a, ts⟩ := p
        by_cases ha : a == key
        · simp only [List.map_cons, ha, if_pos]
          rw [mapGet_cons]
          simp
        · simp only [List.any_cons, ha, Bool.false_or] at h
          simp only [List.map_cons, ha, if_neg, Bool.false_eq_true, not_false_iff]
          rw [mapGet_cons]
          simp only [ha, if_neg, Bool.false_eq_true, not_false_iff]
          exact ih h
  · rw [if_neg h]
    induction m with
    | nil => simp [mapGet, List.find?]
    | cons p m ih =>
        obtain ⟨a, ts⟩ := p
        simp only [List.any_cons, Bool.or_eq_true, not_or] at h
        rw [List.cons_append, mapGet_cons]
        simp only [h.1, if_neg, Bool.false_eq_true, not_false_iff]
        exact ih h.2

theorem mapGet_mapSet_ne (m : ReqMap) (key k2 : Key) (v : List Int)
    (hne : k2 ≠ key) : mapGet (mapSet m key v) k2 = mapGet m k2 := by
  unfold mapSet
  by_cases h : m.any (fun p => p.1 == key)
  · rw [if_pos h]
    clear h
    induction m with
    | nil => rfl
    | cons p m ih =>
        obtain ⟨a, ts⟩ := p
        by_cases ha : a == key
        · simp only [List.map_cons, ha, if_pos]
          rw [mapGet_cons, mapGet_cons]
          have ha2 : (key == k2) = false := by
            simp only [beq_eq_false_iff_ne, ne_eq]
            exact fun hc => hne hc.symm
          have ha3 : (a == k2) = false := by
            have : a = key := by simpa using ha
            subst this
            exact ha2
          rw [ha2, ha3]
          exact ih
        · simp only [List.map_cons, ha, if_neg, Bool.false_eq_true, not_false_iff]
          rw [mapGet_cons, mapGet_cons]
          by_cases ha2 : a == k2
          · simp [ha2]
          · simp only [ha2] at *
            simpa using ih
  · rw [if_neg h]
    induction m with
    | nil =>
        have hk : (key == k2) = false := by
          simp only [beq_eq_false_iff_ne, ne_eq]
          exact fun hc => hne hc.symm
        simp only [List.nil_append]
        rw [mapGet_cons, hk]
        simp
    | cons p m ih =>
        obtain ⟨a, ts⟩ := p
        simp only [List.any_cons, Bool.or_eq_true, not_or] at h
        rw [List.cons_append, mapGet_cons, mapGet_cons]
        by_cases ha2 : a == k2
        · simp [ha2]
        · simp only [ha2] at *
          simpa using ih h.2

theorem mapHasKey_mapSet_self (m : ReqMap) (key : Key) (v : List Int) :
    mapHasKey (mapSet m key v) key = true := by
  unfold mapSet mapHasKey
  by_cases h : m.any (fun p => p.1 == key)
  · rw [if_pos h]
    rw [List.any_eq_true] at h ⊢
    obtain ⟨p, hp, hpk⟩ := h
    refine ⟨(key, v), List.mem_map.2 ⟨p, hp, ?_⟩, by simp⟩
    simp only [hpk, if_pos]
  · rw [if_neg h]
    simp

end Lumen

namespace Lumen

/-! ### Lemmas about the pruning loop -/

theorem pruneLoop_foldl (windowStart : Int) :
    ∀ (requests acc : List Int),
      requests.foldl (fun acc t => if windowStart < t then acc ++ [t] else acc) acc
        = acc ++ requests.filter (fun t => windowStart < t) := by
  intro requests
  induction requests with
  | nil => intro acc; simp
  | cons t ts ih =>
      intro acc
      rw [List.foldl_cons, List.filter_cons]
      by_cases h : windowStart < t
      · rw [if_pos h, if_pos (by simpa using h), ih]
        simp
      · rw [if_neg h, if_neg (by simpa using h), ih]

/-- The append loop in `allow`/`cleanup` computes exactly the in-window
filter of the ledger, in order. -/
theorem pruneLoop_eq_filter (windowStart : Int) (requests : List Int) :
    pruneLoop windowStart requests = requests.filter (fun t => windowStart < t) := by
  unfold pruneLoop
  simpa using pruneLoop_foldl windowStart requests []

theorem pruneLoop_eq_self (windowStart : Int) (requests : List Int)
    (h : ∀ t ∈ requests, windowStart < t) :
    pruneLoop windowStart requests = requests := by
  rw [pruneLoop_eq_filter]
  exact List.filter_eq_self.2 fun t ht => decide_eq_true (h t ht)

theorem mem_pruneLoop (windowStart : Int) (requests : List Int) (t : Int) :
    t ∈ pruneLoop windowStart requests ↔ t ∈ requests ∧ windowStart < t := by
  rw [pruneLoop_eq_filter]
  simp [List.mem_filter]

theorem pruneLoop_sublist (windowStart : Int) (requests : List Int) :
    (pruneLoop windowStart requests).Sublist requests := by
  rw [pruneLoop_eq_filter]
  exact List.filter_sublist requests

theorem pruneLoop_nil (windowStart : Int) : pruneLoop windowStart [] = [] := rfl

/-- On a ledger in nondecreasing order, the in-window filter is a prefix
drop: it drops the maximal initial run of expired timestamps and keeps
everything after it. -/
theorem pruneLoop_eq_dropWhile (windowStart : Int) (requests : List Int)
    (hsorted : requests.Pairwise (· ≤ ·)) :
    pruneLoop windowStart requests
      = requests.dropWhile (fun t => decide (t ≤ windowStart)) := by
  induction requests with
  | nil => rfl
  | cons t ts ih =>
      rw [List.pairwise_cons] at hsorted
      rw [pruneLoop_eq_filter] at *
      rw [List.filter_cons, List.dropWhile_cons]
      by_cases h : windowStart < t
      · rw [if_pos (by simpa using h), if_neg (by simpa using not_le.2 h)]
        congr 1
        exact List.filter_eq_self.2 fun u hu =>
          decide_eq_true (lt_of_lt_of_le h (hsorted.1 u hu))
      · rw [if_neg (by simpa using h), if_pos (by simpa using not_lt.1 h)]
        exact ih hsorted.2

end Lumen

namespace Lumen

/-! ### Unfolding lemmas for `allow` -/

/-- Record update helper: the limiter with its map replaced. -/
def setRequests (rl : rateLimiter) (m : ReqMap) : rateLimiter :=
  { rl with requests := m }

theorem setRequests_requests (rl : rateLimiter) (m : ReqMap) :
    (setRequests rl m).requests = m := rfl

theorem setRequests_limit (rl : rateLimiter) (m : ReqMap) :
    (setRequests rl m).limit = rl.limit := rfl

theorem setRequests_window (rl : rateLimiter) (m : ReqMap) :
    (setRequests rl m).window = rl.window := rfl

theorem allow_reject (rl : rateLimiter) (key : Key) (now : Int)
    (h : rl.limit ≤ ((pruneLoop (now - rl.window) (mapGet rl.requests key)).length : Int)) :
    allow rl key now = (false, setRequests rl (mapSet rl.requests key (pruneLoop (now - rl.window) (mapGet rl.requests key)))) := by
  unfold allow setRequests
  rw [if_pos h]

theorem allow_grant (rl : rateLimiter) (key : Key) (now : Int)
    (h : ((pruneLoop (now - rl.window) (mapGet rl.requests key)).length : Int) < rl.limit) :
    allow rl key now = (true, setRequests rl (mapSet rl.requests key (pruneLoop (now - rl.window) (mapGet rl.requests key) ++ [now]))) := by
  unfold allow setRequests
  rw [if_neg (not_le.2 h)]

theorem allow_snd_limit (rl : rateLimiter) (key : Key) (now : Int) :
    (allow rl key now).2.limit = rl.limit := by
  unfold allow
  by_cases h : rl.limit ≤ ((pruneLoop (now - rl.window) (mapGet rl.requests key)).length : Int)
  · rw [if_pos h]
  · rw [if_neg h]

theorem allow_snd_window (rl : rateLimiter) (key : Key) (now : Int) :
    (allow rl key now).2.window = rl.window := by
  unfold allow
  by_cases h : rl.limit ≤ ((pruneLoop (now - rl.window) (mapGet rl.requests key)).length : Int)
  · rw [if_pos h]
  · rw [if_neg h]

end Lumen

namespace Lumen

theorem allowRun_nil (rl : rateLimiter) (key : Key) :
    allowRun rl key [] = ([], rl) := rfl

theorem allowRun_fst_cons (rl : rateLimiter) (key : Key) (t : Int) (ts : List Int) :
    (allowRun rl key (t :: ts)).1
      = (allow rl key t).1 :: (allowRun (allow rl key t).2 key ts).1 := rfl

theorem allowRun_snd_cons (rl : rateLimiter) (key : Key) (t : Int) (ts : List Int) :
    (allowRun rl key (t :: ts)).2 = (allowRun (allow rl key t).2 key ts).2 := rfl

/-! ### Closed form for a burst of in-window calls on one key -/

/-- Decision sequence predicted for `n` calls when the key's pruned ledger
already holds `count` surviving timestamps: admit while below `limit`,
reject afterwards. -/
def expectedResults (count : Nat) (limit : Int) : Nat → List Bool
  | 0 => []
  | n + 1 =>
      if (count : Int) < limit then true :: expectedResults (count + 1) limit n
      else false :: expectedResults count limit n

theorem expectedResults_length (limit : Int) :
    ∀ (n count : Nat), (expectedResults count limit n).length = n := by
  intro n
  induction n with
  | zero => intro count; rfl
  | succ n ih =>
      intro count
      unfold expectedResults
      by_cases h : (count : Int) < limit
      · rw [if_pos h, List.length_cons, ih]
      · rw [if_neg h, List.length_cons, ih]

theorem expectedResults_count_true (limit : Int) :
    ∀ (n count : Nat),
      ((expectedResults count limit n).count true : Int) + count ≤ max limit count := by
  intro n
  induction n with
  | zero =>
      intro count
      simp [expectedResults, le_max_iff]
  | succ n ih =>
      intro count
      unfold expectedResults
      by_cases h : (count : Int) < limit
      · rw [if_pos h]
        have := ih (count + 1)
        rw [List.count_cons]
        simp only [if_pos, beq_self_eq_true]
        push_cast at this ⊢
        omega
      · rw [if_neg h]
        have := ih count
        rw [List.count_cons]
        simp only [beq_iff_eq, Bool.false_eq_true, if_neg, not_false_iff]
        push_cast at this ⊢
        omega

theorem expectedResults_getElem_false (limit : Int) :
    ∀ (n count i : Nat), limit ≤ (count : Int) + (i : Int) → i < n →
      (expectedResults count limit n)[i]? = some false := by
  intro n
  induction n with
  | zero => intro count i _ hi; omega
  | succ n ih =>
      intro count i hli hi
      unfold expectedResults
      by_cases h : (count : Int) < limit
      · rw [if_pos h]
        match i with
        | 0 => push_cast at hli; omega
        | i + 1 =>
            rw [List.getElem?_cons_succ]
            apply ih
            · push_cast at hli ⊢
              omega
            · omega
      · rw [if_neg h]
        match i with
        | 0 => rw [List.getElem?_cons_zero]
        | i + 1 =>
            rw [List.getElem?_cons_succ]
            apply ih
            · push_cast at hli ⊢
              omega
            · omega

theorem expectedResults_all_true (limit : Int) :
    ∀ (n count : Nat), (count : Int) + (n : Int) ≤ limit →
      expectedResults count limit n = List.replicate n true := by
  intro n
  induction n with
  | zero => intro count _; rfl
  | succ n ih =>
      intro count hcn
      unfold expectedResults
      rw [if_pos (by push_cast at hcn ⊢; omega), List.replicate_succ]
      congr 1
      apply ih
      push_cast at hcn ⊢
      omega

end Lumen

namespace Lumen


/-- Core induction: starting from any state whose ledger for `key` survives
pruning at every remaining call time, a nondecreasing sequence of calls
within one window produces exactly the `expectedResults` decisions. -/
theorem allowRun_closed_form (key : Key) :
    ∀ (ts : List Int) (rl : rateLimiter),
      ts.Pairwise (fun a b => a ≤ b ∧ b - a < rl.window) →
      (∀ p ∈ mapGet rl.requests key, ∀ t ∈ ts, t - rl.window < p ∧ p ≤ t) →
      (allowRun rl key ts).1
        = expectedResults (mapGet rl.requests key).length rl.limit ts.length := by
  intro ts
  induction ts with
  | nil => intro rl _ _; rfl
  | cons t ts ih =>
      intro rl hpair hpre
      rw [List.pairwise_cons] at hpair
      have hkeep : pruneLoop (t - rl.window) (mapGet rl.requests key)
          = mapGet rl.requests key :=
        pruneLoop_eq_self _ _ fun p hp => (hpre p hp t (List.mem_cons_self t ts)).1
      rw [allowRun_fst_cons, List.length_cons]
      unfold expectedResults
      by_cases hc : ((mapGet rl.requests key).length : Int) < rl.limit
      · rw [if_pos hc, allow_grant rl key t (by rw [hkeep]; exact hc)]
        dsimp only
        have hget : mapGet (mapSet rl.requests key
              (pruneLoop (t - rl.window) (mapGet rl.requests key) ++ [t])) key
            = mapGet rl.requests key ++ [t] := by
          rw [mapGet_mapSet_self, hkeep]
        have harg : ∀ p ∈ mapGet (mapSet rl.requests key
              (pruneLoop (t - rl.window) (mapGet rl.requests key) ++ [t])) key,
            ∀ u ∈ ts, u - rl.window < p ∧ p ≤ u := by
          intro p hp u hu
          rw [hget, List.mem_append, List.mem_singleton] at hp
          rcases hp with hp | hp
          · exact hpre p hp u (List.mem_cons_of_mem t hu)
          · subst hp
            obtain ⟨hle, hwin⟩ := hpair.1 u hu
            refine ⟨?_, hle⟩
            omega
        have htail := ih
          (setRequests rl (mapSet rl.requests key
            (pruneLoop (t - rl.window) (mapGet rl.requests key) ++ [t])))
          (by exact hpair.2) (by exact harg)
        rw [setRequests_requests, setRequests_limit] at htail
        rw [hget, List.length_append, List.length_singleton] at htail
        rw [htail]
      · rw [if_neg hc, allow_reject rl key t (by rw [hkeep]; exact (not_lt.1 hc))]
        dsimp only
        have hget : mapGet (mapSet rl.requests key
              (pruneLoop (t - rl.window) (mapGet rl.requests key))) key
            = mapGet rl.requests key := by
          rw [mapGet_mapSet_self, hkeep]
        have harg : ∀ p ∈ mapGet (mapSet rl.requests key
              (pruneLoop (t - rl.window) (mapGet rl.requests key))) key,
            ∀ u ∈ ts, u - rl.window < p ∧ p ≤ u := by
          intro p hp u hu
          rw [hget] at hp
          exact hpre p hp u (List.mem_cons_of_mem t hu)
        have htail := ih
          (setRequests rl (mapSet rl.requests key
            (pruneLoop (t - rl.window) (mapGet rl.requests key))))
          (by exact hpair.2) (by exact harg)
        rw [setRequests_requests, setRequests_limit] at htail
        rw [hget] at htail
        rw [htail]

end Lumen

namespace Lumen

/-- C1: for a limiter built with `limit > 0` and `window > 0`, any sequence
of `allow` calls for one key at nondecreasing times all lying within one
window admits at most `limit` of them, and every call past the first
`limit` (0-based index `≥ limit`, i.e. the final `n - limit` calls) is
rejected. -/
theorem claim_C1_single_window_cap (limit window : Int) (key : Key) (ts : List Int)
    (hl : 0 < limit) (hw : 0 < window)
    (hts : ts.Pairwise (fun a b => a ≤ b ∧ b - a < window)) :
    (((allowRun (newRateLimiter limit window) key ts).1.count true : Int) ≤ limit) ∧
    (∀ i : Nat, limit ≤ (i : Int) → i < ts.length →
      (allowRun (newRateLimiter limit window) key ts).1[i]? = some false) := by
  have h0 : mapGet (newRateLimiter limit window).requests key = [] := rfl
  have hcf := allowRun_closed_form key ts (newRateLimiter limit window)
    (by exact hts)
    (by
      intro p hp u hu
      rw [h0] at hp
      exact absurd hp (List.not_mem_nil p))
  have hlim : (newRateLimiter limit window).limit = limit := rfl
  rw [h0, List.length_nil, hlim] at hcf
  constructor
  · rw [hcf]
    have hcount := expectedResults_count_true limit ts.length 0
    push_cast at hcount ⊢
    omega
  · intro i hli hin
    rw [hcf]
    apply expectedResults_getElem_false limit ts.length 0 i
    · push_cast
      omega
    · exact hin

theorem claim_C1_single_window_cap_witness :
    (0:Int) < 2 ∧ (0:Int) < 10 ∧
    ([0, 1, 2] : List Int).Pairwise (fun a b => a ≤ b ∧ b - a < 10) ∧
    ((((allowRun (newRateLimiter 2 10) "k" [0, 1, 2]).1.count true : Int) ≤ 2) ∧
      (∀ i : Nat, (2:Int) ≤ (i : Int) → i < ([0, 1, 2] : List Int).length →
        (allowRun (newRateLimiter 2 10) "k" [0, 1, 2]).1[i]? = some false)) :=
  ⟨by decide, by decide, by decide,
    claim_C1_single_window_cap 2 10 "k" [0, 1, 2] (by decide) (by decide) (by decide)⟩

/-- C2 counterexample: construction performs no validation.  A limiter
built with the non-positive window `0` is returned and even admits a
request, and a limiter built with the non-positive limit `0` is likewise
returned with its fields stored verbatim — `newRateLimiter` neither fails
nor panics on non-positive arguments. -/
theorem claim_C2_counterexample :
    (allow (newRateLimiter 5 0) "k" 0).1 = true ∧
    newRateLimiter 5 0 = { requests := [], limit := 5, window := 0 } ∧
    newRateLimiter 0 60 = { requests := [], limit := 0, window := 60 } := by
  refine ⟨?_, rfl, rfl⟩
  rfl

/-- C2 amended: `newRateLimiter` performs no validation of `limit` or
`window` — for every pair of arguments, including non-positive ones, it
returns a limiter holding exactly the given parameters and an empty map;
no configuration error is detected at construction. -/
theorem claim_C2_amended (limit window : Int) :
    newRateLimiter limit window
      = { requests := [], limit := limit, window := window } := rfl

/-- C3: with `limit = 5` and `window = 60s` (milliseconds as units), six
calls for key `A` inside second 0 yield `[T,T,T,T,T,F]`, a call for key
`B` inside second 0 is admitted despite `A` being exhausted, and a
seventh `A` call at `t = 61s` is admitted. -/
theorem claim_C3_concrete_scenario :
    allowSeq (newRateLimiter 5 60000)
      [("A", 0), ("A", 1), ("A", 2), ("A", 3), ("A", 4), ("A", 5),
        ("B", 5), ("A", 61000)]
      = [true, true, true, true, true, false, true, true] := by
  rfl

end Lumen

namespace Lumen

/-- A burst of identical-time calls: from a ledger of `j` copies of `t0`,
`n` further calls at `t0` are all admitted while `j + n ≤ limit`, leaving
`j + n` copies of `t0` stored. -/
theorem allowRun_replicate_t0 (key : Key) (t0 : Int) :
    ∀ (n : Nat) (rl : rateLimiter) (j : Nat),
      0 < rl.window →
      mapGet rl.requests key = List.replicate j t0 →
      (j : Int) + (n : Int) ≤ rl.limit →
      (allowRun rl key (List.replicate n t0)).1 = List.replicate n true ∧
      mapGet ((allowRun rl key (List.replicate n t0)).2).requests key
        = List.replicate (j + n) t0 ∧
      ((allowRun rl key (List.replicate n t0)).2).limit = rl.limit ∧
      ((allowRun rl key (List.replicate n t0)).2).window = rl.window := by
  intro n
  induction n with
  | zero => intro rl j hw hled hcap; exact ⟨rfl, hled, rfl, rfl⟩
  | succ n ih =>
      intro rl j hw hled hcap
      have hkeep : pruneLoop (t0 - rl.window) (mapGet rl.requests key)
          = mapGet rl.requests key := by
        apply pruneLoop_eq_self
        intro p hp
        rw [hled] at hp
        have := List.eq_of_mem_replicate hp
        subst this
        omega
      have hlen : ((pruneLoop (t0 - rl.window) (mapGet rl.requests key)).length : Int)
          < rl.limit := by
        rw [hkeep, hled, List.length_replicate]
        push_cast at hcap ⊢
        omega
      rw [List.replicate_succ, allowRun_fst_cons, allowRun_snd_cons,
        allow_grant rl key t0 hlen]
      dsimp only
      have hS : mapGet ((setRequests rl (mapSet rl.requests key
            (pruneLoop (t0 - rl.window) (mapGet rl.requests key) ++ [t0]))).requests) key
          = List.replicate (j + 1) t0 := by
        rw [setRequests_requests, mapGet_mapSet_self, hkeep, hled,
          ← List.replicate_succ']
      obtain ⟨h1, h2, h3, h4⟩ := ih
        (setRequests rl (mapSet rl.requests key
          (pruneLoop (t0 - rl.window) (mapGet rl.requests key) ++ [t0])))
        (j + 1)
        (by rw [setRequests_window]; exact hw)
        hS
        (by rw [setRequests_limit]; push_cast at hcap ⊢; omega)
      refine ⟨?_, ?_, ?_, ?_⟩
      · rw [List.replicate_succ, h1]
      · rw [h2]
        congr 1
        omega
      · rw [h3, setRequests_limit]
      · rw [h4, setRequests_window]

/-- C4: a key that used exactly its full quota at `t0` (all admitted, from
a fresh limiter) is admitted again at `t0 + window + ε` for every
`ε > 0`: the old timestamps have fully expired. -/
theorem claim_C4_window_expiry (limit window t0 eps : Int) (key : Key)
    (hl : 0 < limit) (hw : 0 < window) (he : 0 < eps) :
    (allowRun (newRateLimiter limit window) key (List.replicate limit.toNat t0)).1
      = List.replicate limit.toNat true ∧
    (allow (allowRun (newRateLimiter limit window) key
        (List.replicate limit.toNat t0)).2 key (t0 + window + eps)).1 = true := by
  obtain ⟨h1, h2, h3, h4⟩ := allowRun_replicate_t0 key t0 limit.toNat
    (newRateLimiter limit window) 0
    (by exact hw)
    (by rfl)
    (by show (0:Int) + (limit.toNat : Int) ≤ limit; omega)
  refine ⟨h1, ?_⟩
  have hw4 : (allowRun (newRateLimiter limit window) key
      (List.replicate limit.toNat t0)).2.window = window := h4
  have hl4 : (allowRun (newRateLimiter limit window) key
      (List.replicate limit.toNat t0)).2.limit = limit := h3
  have h2z : mapGet ((allowRun (newRateLimiter limit window) key
      (List.replicate limit.toNat t0)).2).requests key
      = List.replicate limit.toNat t0 := by
    rw [h2, Nat.zero_add]
  have hpr : pruneLoop (t0 + window + eps
        - (allowRun (newRateLimiter limit window) key
            (List.replicate limit.toNat t0)).2.window)
      (mapGet ((allowRun (newRateLimiter limit window) key
          (List.replicate limit.toNat t0)).2).requests key) = [] := by
    rw [hw4, h2z, pruneLoop_eq_filter]
    rw [List.filter_eq_nil]
    intro a ha
    have := List.eq_of_mem_replicate ha
    subst this
    simp only [decide_eq_true_eq]
    omega
  have hcond : ((pruneLoop (t0 + window + eps
        - (allowRun (newRateLimiter limit window) key
            (List.replicate limit.toNat t0)).2.window)
      (mapGet ((allowRun (newRateLimiter limit window) key
          (List.replicate limit.toNat t0)).2).requests key)).length : Int)
      < (allowRun (newRateLimiter limit window) key
          (List.replicate limit.toNat t0)).2.limit := by
    rw [hpr, hl4, List.length_nil]
    push_cast
    omega
  rw [allow_grant _ key (t0 + window + eps) hcond]

theorem claim_C4_window_expiry_witness :
    (0:Int) < 3 ∧ (0:Int) < 50 ∧ (0:Int) < 7 ∧
    ((allowRun (newRateLimiter 3 50) "k" (List.replicate (3:Int).toNat 100)).1
        = List.replicate (3:Int).toNat true ∧
      (allow (allowRun (newRateLimiter 3 50) "k"
          (List.replicate (3:Int).toNat 100)).2 "k" (100 + 50 + 7)).1 = true) :=
  ⟨by decide, by decide, by decide,
    claim_C4_window_expiry 3 50 100 7 "k" (by decide) (by decide) (by decide)⟩

end Lumen

namespace Lumen

/-- C5: after any `allow` call at time `now` — admitted or rejected — the
ledger stored for the key holds only timestamps in `[now - window, now]`
(assuming, as real time guarantees, that no recorded timestamp lies in
the future of `now`). -/
theorem claim_C5_stored_ledger_pruned (rl : rateLimiter) (key : Key) (now : Int)
    (hw : 0 < rl.window)
    (hpast : ∀ t ∈ mapGet rl.requests key, t ≤ now) :
    ∀ t ∈ mapGet ((allow rl key now).2).requests key,
      now - rl.window ≤ t ∧ t ≤ now := by
  intro t ht
  by_cases hc : rl.limit
      ≤ ((pruneLoop (now - rl.window) (mapGet rl.requests key)).length : Int)
  · rw [allow_reject rl key now hc] at ht
    dsimp only at ht
    rw [setRequests_requests, mapGet_mapSet_self] at ht
    obtain ⟨hmem, hgt⟩ := (mem_pruneLoop _ _ _).1 ht
    exact ⟨by omega, hpast t hmem⟩
  · push_neg at hc
    rw [allow_grant rl key now hc] at ht
    dsimp only at ht
    rw [setRequests_requests, mapGet_mapSet_self] at ht
    rw [List.mem_append, List.mem_singleton] at ht
    rcases ht with ht | ht
    · obtain ⟨hmem, hgt⟩ := (mem_pruneLoop _ _ _).1 ht
      exact ⟨by omega, hpast t hmem⟩
    · subst ht
      exact ⟨by omega, by omega⟩

theorem claim_C5_stored_ledger_pruned_witness :
    (0:Int) < 20 ∧
    (∀ t ∈ mapGet [("k", [5])] "k", t ≤ 10) ∧
    (∀ t ∈ mapGet (((allow { requests := [("k", [5])], limit := 1, window := 20 }
        "k" 10).2).requests) "k", (10:Int) - 20 ≤ t ∧ t ≤ 10) :=
  ⟨by decide, by decide,
    claim_C5_stored_ledger_pruned
      { requests := [("k", [5])], limit := 1, window := 20 } "k" 10
      (by decide) (by decide)⟩

/-- C6: `allow` for key `k1` leaves every other key's ledger untouched,
and its boolean decision depends only on `k1`'s ledger, the limit, the
window and the current time — two limiters agreeing on those agree on the
decision. -/
theorem claim_C6_per_key_isolation (rl rl2 : rateLimiter) (k1 k2 : Key) (now : Int)
    (hne : k2 ≠ k1)
    (hlim : rl2.limit = rl.limit) (hwin : rl2.window = rl.window)
    (hled : mapGet rl2.requests k1 = mapGet rl.requests k1) :
    mapGet ((allow rl k1 now).2).requests k2 = mapGet rl.requests k2 ∧
    (allow rl2 k1 now).1 = (allow rl k1 now).1 := by
  constructor
  · by_cases hc : rl.limit
        ≤ ((pruneLoop (now - rl.window) (mapGet rl.requests k1)).length : Int)
    · rw [allow_reject rl k1 now hc]
      dsimp only
      rw [setRequests_requests]
      exact mapGet_mapSet_ne _ _ _ _ hne
    · push_neg at hc
      rw [allow_grant rl k1 now hc]
      dsimp only
      rw [setRequests_requests]
      exact mapGet_mapSet_ne _ _ _ _ hne
  · have hws : now - rl2.window = now - rl.window := by rw [hwin]
    by_cases hc : rl.limit
        ≤ ((pruneLoop (now - rl.window) (mapGet rl.requests k1)).length : Int)
    · rw [allow_reject rl k1 now hc,
        allow_reject rl2 k1 now (by rw [hlim, hws, hled]; exact hc)]
    · push_neg at hc
      rw [allow_grant rl k1 now hc,
        allow_grant rl2 k1 now (by rw [hlim, hws, hled]; exact hc)]

theorem claim_C6_per_key_isolation_witness :
    ("b" : Key) ≠ "a" ∧
    ({ requests := [("a", [1]), ("x", [9])], limit := 2, window := 30 } : rateLimiter).limit
      = ({ requests := [("a", [1])], limit := 2, window := 30 } : rateLimiter).limit ∧
    ({ requests := [("a", [1]), ("x", [9])], limit := 2, window := 30 } : rateLimiter).window
      = ({ requests := [("a", [1])], limit := 2, window := 30 } : rateLimiter).window ∧
    mapGet [("a", [1]), ("x", [9])] "a" = mapGet [("a", [1])] "a" ∧
    (mapGet (((allow { requests := [("a", [1])], limit := 2, window := 30 }
        "a" 5).2).requests) "b" = mapGet [("a", [1])] "b" ∧
      (allow { requests := [("a", [1]), ("x", [9])], limit := 2, window := 30 } "a" 5).1
        = (allow { requests := [("a", [1])], limit := 2, window := 30 } "a" 5).1) :=
  ⟨by decide, by decide, by decide, by decide,
    claim_C6_per_key_isolation
      { requests := [("a", [1])], limit := 2, window := 30 }
      { requests := [("a", [1]), ("x", [9])], limit := 2, window := 30 }
      "a" "b" 5 (by decide) (by decide) (by decide) (by decide)⟩

/-- C9: with a non-positive limit (construction does not reject it) every
`allow` call is rejected, no timestamp is appended, and the pruned —
possibly empty — ledger is still written back, creating a map entry even
for a key that was never admitted. -/
theorem claim_C9_nonpositive_limit (rl : rateLimiter) (key : Key) (now : Int)
    (hl : rl.limit ≤ 0) :
    (allow rl key now).1 = false ∧
    mapHasKey ((allow rl key now).2).requests key = true ∧
    mapGet ((allow rl key now).2).requests key
      = pruneLoop (now - rl.window) (mapGet rl.requests key) := by
  have hc : rl.limit
      ≤ ((pruneLoop (now - rl.window) (mapGet rl.requests key)).length : Int) := by
    omega
  rw [allow_reject rl key now hc]
  dsimp only
  refine ⟨rfl, ?_, ?_⟩
  · rw [setRequests_requests]
    exact mapHasKey_mapSet_self _ _ _
  · rw [setRequests_requests]
    exact mapGet_mapSet_self _ _ _

theorem claim_C9_nonpositive_limit_witness :
    (newRateLimiter 0 60).limit ≤ 0 ∧
    ((allow (newRateLimiter 0 60) "k" 7).1 = false ∧
      mapHasKey (((allow (newRateLimiter 0 60) "k" 7).2).requests) "k" = true ∧
      mapGet (((allow (newRateLimiter 0 60) "k" 7).2).requests) "k"
        = pruneLoop (7 - (newRateLimiter 0 60).window)
            (mapGet ((newRateLimiter 0 60).requests) "k")) :=
  ⟨by decide, claim_C9_nonpositive_limit (newRateLimiter 0 60) "k" 7 (by decide)⟩

end Lumen


namespace Lumen

/-! ### Lemmas about the reaper pass -/

theorem cleanMap_nil (ws : Int) : cleanMap ws [] = [] := rfl

theorem cleanMap_cons (ws : Int) (a : Key) (ts : List Int) (m : ReqMap) :
    cleanMap ws ((a, ts) :: m)
      = if (pruneLoop ws ts).length = 0 then cleanMap ws m
        else (a, pruneLoop ws ts) :: cleanMap ws m := by
  unfold cleanMap
  rw [List.filterMap_cons]
  dsimp only
  by_cases h : (pruneLoop ws ts).length = 0
  · rw [if_pos h, if_pos h]
  · rw [if_neg h, if_neg h]

theorem mapHasKey_eq_false_iff (m : ReqMap) (key : Key) :
    mapHasKey m key = false ↔ key ∉ m.map Prod.fst := by
  rw [← Bool.not_eq_true]
  unfold mapHasKey
  rw [List.any_eq_true]
  simp [List.mem_map, beq_iff_eq]

theorem cleanMap_mapHasKey_false (ws : Int) :
    ∀ (m : ReqMap) (key : Key), mapHasKey m key = false →
      mapHasKey (cleanMap ws m) key = false := by
  intro m
  induction m with
  | nil => intro key _; rfl
  | cons p m ih =>
      obtain ⟨a, ts⟩ := p
      intro key h
      rw [mapHasKey_cons, Bool.or_eq_false_iff] at h
      rw [cleanMap_cons]
      by_cases hp : (pruneLoop ws ts).length = 0
      · rw [if_pos hp]
        exact ih key h.2
      · rw [if_neg hp, mapHasKey_cons, h.1, Bool.false_or]
        exact ih key h.2

theorem cleanMap_mapGet_of_not_has (ws : Int) :
    ∀ (m : ReqMap) (key : Key), mapHasKey m key = false →
      mapGet (cleanMap ws m) key = [] := by
  intro m key h
  apply mapGet_eq_nil_of_not_mem
  exact (mapHasKey_eq_false_iff _ _).1 (cleanMap_mapHasKey_false ws m key h)

/-- After one reaper pass, reading any key gives exactly the pruned form
of what was stored before (the empty ledger for deleted or absent keys). -/
theorem cleanMap_mapGet (ws : Int) :
    ∀ (m : ReqMap), (m.map Prod.fst).Nodup →
      ∀ key, mapGet (cleanMap ws m) key = pruneLoop ws (mapGet m key) := by
  intro m
  induction m with
  | nil => intro _ key; rfl
  | cons p m ih =>
      obtain ⟨a, ts⟩ := p
      intro hnd key
      simp only [List.map_cons, List.nodup_cons] at hnd
      rw [cleanMap_cons, mapGet_cons]
      by_cases hk : (a == key) = true
      · rw [if_pos hk]
        have hak : a = key := by simpa using hk
        by_cases hp : (pruneLoop ws ts).length = 0
        · rw [if_pos hp]
          have hnk : mapHasKey m key = false := by
            rw [mapHasKey_eq_false_iff, ← hak]
            exact hnd.1
          rw [cleanMap_mapGet_of_not_has ws m key hnk]
          rw [List.length_eq_zero] at hp
          rw [hp]
        · rw [if_neg hp, mapGet_cons, if_pos hk]
      · rw [if_neg hk]
        by_cases hp : (pruneLoop ws ts).length = 0
        · rw [if_pos hp]
          exact ih hnd.2 key
        · rw [if_neg hp, mapGet_cons, if_neg hk]
          exact ih hnd.2 key

/-- After one reaper pass, a key is present exactly when it was present
before and its pruned ledger is nonempty. -/
theorem cleanMap_mapHasKey (ws : Int) :
    ∀ (m : ReqMap), (m.map Prod.fst).Nodup →
      ∀ key, mapHasKey (cleanMap ws m) key = true ↔
        (mapHasKey m key = true ∧ pruneLoop ws (mapGet m key) ≠ []) := by
  intro m
  induction m with
  | nil =>
      intro _ key
      constructor
      · intro h; cases h
      · intro h; cases h.1
  | cons p m ih =>
      obtain ⟨a, ts⟩ := p
      intro hnd key
      simp only [List.map_cons, List.nodup_cons] at hnd
      rw [cleanMap_cons, mapHasKey_cons, mapGet_cons]
      by_cases hk : (a == key) = true
      · have hak : a = key := by simpa using hk
        rw [if_pos hk, hk, Bool.true_or]
        by_cases hp : (pruneLoop ws ts).length = 0
        · rw [if_pos hp]
          have hnk : mapHasKey m key = false := by
            rw [mapHasKey_eq_false_iff, ← hak]
            exact hnd.1
          rw [cleanMap_mapHasKey_false ws m key hnk]
          rw [List.length_eq_zero] at hp
          rw [hp]
          simp
        · rw [if_neg hp, mapHasKey_cons, hk, Bool.true_or]
          have hne : pruneLoop ws ts ≠ [] := by
            intro hc
            rw [hc] at hp
            exact hp rfl
          simp [hne]
      · have hk2 : (a == key) = false := by
          rw [Bool.eq_false_iff]
          exact hk
        rw [if_neg hk, hk2, Bool.false_or]
        by_cases hp : (pruneLoop ws ts).length = 0
        · rw [if_pos hp]
          exact ih hnd.2 key
        · rw [if_neg hp, mapHasKey_cons, hk2, Bool.false_or]
          exact ih hnd.2 key

end Lumen

namespace Lumen

/-- C7: a reaper cycle at time `now` prunes every key's ledger exactly as
`allow` does, keeps a key exactly when its pruned ledger is nonempty —
so every surviving key has an in-window timestamp — and removes every key
whose ledger had fully expired. -/
theorem claim_C7_reaper_cycle (rl : rateLimiter) (now : Int)
    (hnd : (rl.requests.map Prod.fst).Nodup) :
    (∀ k, mapGet (cleanupCycle rl now).requests k
        = pruneLoop (now - rl.window) (mapGet rl.requests k)) ∧
    (∀ k, mapHasKey (cleanupCycle rl now).requests k = true ↔
        (mapHasKey rl.requests k = true ∧
          pruneLoop (now - rl.window) (mapGet rl.requests k) ≠ [])) ∧
    (∀ k, mapHasKey (cleanupCycle rl now).requests k = true →
        ∃ t ∈ mapGet (cleanupCycle rl now).requests k, now - rl.window < t) ∧
    (∀ k, pruneLoop (now - rl.window) (mapGet rl.requests k) = [] →
        mapHasKey (cleanupCycle rl now).requests k = false) := by
  have hreq : (cleanupCycle rl now).requests
      = cleanMap (now - rl.window) rl.requests := rfl
  have hget : ∀ k, mapGet (cleanupCycle rl now).requests k
      = pruneLoop (now - rl.window) (mapGet rl.requests k) := by
    intro k
    rw [hreq]
    exact cleanMap_mapGet (now - rl.window) rl.requests hnd k
  have hhas : ∀ k, mapHasKey (cleanupCycle rl now).requests k = true ↔
      (mapHasKey rl.requests k = true ∧
        pruneLoop (now - rl.window) (mapGet rl.requests k) ≠ []) := by
    intro k
    rw [hreq]
    exact cleanMap_mapHasKey (now - rl.window) rl.requests hnd k
  refine ⟨hget, hhas, ?_, ?_⟩
  · intro k hk
    obtain ⟨_, hne⟩ := (hhas k).1 hk
    obtain ⟨t, ht⟩ := List.exists_mem_of_ne_nil
      (mapGet (cleanupCycle rl now).requests k) (by rw [hget k]; exact hne)
    refine ⟨t, ht, ?_⟩
    rw [hget k] at ht
    exact ((mem_pruneLoop _ _ _).1 ht).2
  · intro k hp
    cases hcase : mapHasKey (cleanupCycle rl now).requests k with
    | false => rfl
    | true =>
        obtain ⟨_, hne⟩ := (hhas k).1 hcase
        exact absurd hp hne

theorem claim_C7_reaper_cycle_witness :
    (((([("a", [0]), ("b", [90])] : ReqMap)).map Prod.fst).Nodup) ∧
    ((∀ k, mapGet (cleanupCycle
          { requests := [("a", [0]), ("b", [90])], limit := 5, window := 60 }
          100).requests k
        = pruneLoop (100 - 60) (mapGet [("a", [0]), ("b", [90])] k)) ∧
      (∀ k, mapHasKey (cleanupCycle
          { requests := [("a", [0]), ("b", [90])], limit := 5, window := 60 }
          100).requests k = true ↔
        (mapHasKey [("a", [0]), ("b", [90])] k = true ∧
          pruneLoop (100 - 60) (mapGet [("a", [0]), ("b", [90])] k) ≠ [])) ∧
      (∀ k, mapHasKey (cleanupCycle
          { requests := [("a", [0]), ("b", [90])], limit := 5, window := 60 }
          100).requests k = true →
        ∃ t ∈ mapGet (cleanupCycle
            { requests := [("a", [0]), ("b", [90])], limit := 5, window := 60 }
            100).requests k, 100 - 60 < t) ∧
      (∀ k, pruneLoop (100 - 60) (mapGet [("a", [0]), ("b", [90])] k) = [] →
        mapHasKey (cleanupCycle
          { requests := [("a", [0]), ("b", [90])], limit := 5, window := 60 }
          100).requests k = false)) :=
  ⟨by decide,
    claim_C7_reaper_cycle
      { requests := [("a", [0]), ("b", [90])], limit := 5, window := 60 }
      100 (by decide)⟩

end Lumen

namespace Lumen

/-- Per-key state invariant: every stored ledger holds at most `limit`
timestamps, in nondecreasing order, none in the future of `now`. -/
def ledgerInv (rl : rateLimiter) (now : Int) : Prop :=
  ∀ k : Key, ((mapGet rl.requests k).length : Int) ≤ rl.limit ∧
    (mapGet rl.requests k).Pairwise (· ≤ ·) ∧
    ∀ t ∈ mapGet rl.requests k, t ≤ now

/-- C10: for a limiter with `limit ≥ 1`, both an `allow` call and a reaper
cycle preserve the invariant that each key's ledger has at most `limit`
entries in nondecreasing order, under nondecreasing current time. -/
theorem claim_C10_invariant_preserved (rl : rateLimiter) (key : Key)
    (now now2 : Int)
    (hl : 1 ≤ rl.limit)
    (hnd : (rl.requests.map Prod.fst).Nodup)
    (hinv : ledgerInv rl now) (hmono : now ≤ now2) :
    ledgerInv (allow rl key now2).2 now2 ∧ ledgerInv (cleanupCycle rl now2) now2 := by
  constructor
  · intro k
    have hlim2 : (allow rl key now2).2.limit = rl.limit := allow_snd_limit rl key now2
    by_cases hkk : k = key
    · subst hkk
      obtain ⟨hlen, hsort, hbound⟩ := hinv k
      have hsub := pruneLoop_sublist (now2 - rl.window) (mapGet rl.requests k)
      by_cases hc : rl.limit
          ≤ ((pruneLoop (now2 - rl.window) (mapGet rl.requests k)).length : Int)
      · rw [allow_reject rl k now2 hc]
        dsimp only
        rw [setRequests_requests, mapGet_mapSet_self, setRequests_limit]
        refine ⟨?_, hsort.sublist hsub, ?_⟩
        · have := hsub.length_le
          omega
        · intro t ht
          obtain ⟨hm, _⟩ := (mem_pruneLoop _ _ _).1 ht
          exact le_trans (hbound t hm) hmono
      · push_neg at hc
        rw [allow_grant rl k now2 hc]
        dsimp only
        rw [setRequests_requests, mapGet_mapSet_self, setRequests_limit]
        refine ⟨?_, ?_, ?_⟩
        · rw [List.length_append, List.length_singleton]
          push_cast
          omega
        · rw [List.pairwise_append]
          refine ⟨hsort.sublist hsub, List.pairwise_singleton _ _, ?_⟩
          intro a ha b hb
          rw [List.mem_singleton] at hb
          subst hb
          obtain ⟨hm, _⟩ := (mem_pruneLoop _ _ _).1 ha
          exact le_trans (hbound a hm) hmono
        · intro t ht
          rw [List.mem_append, List.mem_singleton] at ht
          rcases ht with ht | ht
          · obtain ⟨hm, _⟩ := (mem_pruneLoop _ _ _).1 ht
            exact le_trans (hbound t hm) hmono
          · subst ht
            exact le_refl _
    · have hgg : mapGet ((allow rl key now2).2).requests k
          = mapGet rl.requests k := by
        by_cases hc : rl.limit
            ≤ ((pruneLoop (now2 - rl.window) (mapGet rl.requests key)).length : Int)
        · rw [allow_reject rl key now2 hc]
          dsimp only
          rw [setRequests_requests]
          exact mapGet_mapSet_ne _ _ _ _ hkk
        · push_neg at hc
          rw [allow_grant rl key now2 hc]
          dsimp only
          rw [setRequests_requests]
          exact mapGet_mapSet_ne _ _ _ _ hkk
      rw [hgg, hlim2]
      obtain ⟨hlen, hsort, hbound⟩ := hinv k
      exact ⟨hlen, hsort, fun t ht => le_trans (hbound t ht) hmono⟩
  · intro k
    have hreq : (cleanupCycle rl now2).requests
        = cleanMap (now2 - rl.window) rl.requests := rfl
    have hliml : (cleanupCycle rl now2).limit = rl.limit := rfl
    rw [hliml, hreq, cleanMap_mapGet _ _ hnd k]
    obtain ⟨hlen, hsort, hbound⟩ := hinv k
    have hsub := pruneLoop_sublist (now2 - rl.window) (mapGet rl.requests k)
    refine ⟨?_, hsort.sublist hsub, ?_⟩
    · have := hsub.length_le
      omega
    · intro t ht
      obtain ⟨hm, _⟩ := (mem_pruneLoop _ _ _).1 ht
      exact le_trans (hbound t hm) hmono

theorem ledgerInv_newRateLimiter (limit window now : Int) (h : 0 ≤ limit) :
    ledgerInv (newRateLimiter limit window) now := by
  intro k
  refine ⟨?_, ?_, ?_⟩
  · show ((mapGet [] k).length : Int) ≤ limit
    rw [mapGet_nil]
    simpa using h
  · show (mapGet [] k).Pairwise (· ≤ ·)
    rw [mapGet_nil]
    exact List.Pairwise.nil
  · show ∀ t ∈ mapGet [] k, t ≤ now
    rw [mapGet_nil]
    intro t ht
    exact absurd ht (List.not_mem_nil t)

theorem claim_C10_invariant_preserved_witness :
    (1:Int) ≤ (newRateLimiter 1 10).limit ∧
    (((newRateLimiter 1 10).requests.map Prod.fst).Nodup) ∧
    ledgerInv (newRateLimiter 1 10) 0 ∧ (0:Int) ≤ 0 ∧
    (ledgerInv (allow (newRateLimiter 1 10) "k" 0).2 0 ∧
      ledgerInv (cleanupCycle (newRateLimiter 1 10) 0) 0) :=
  ⟨by decide, by decide,
    ledgerInv_newRateLimiter 1 10 0 (by decide),
    by decide,
    claim_C10_invariant_preserved (newRateLimiter 1 10) "k" 0 0
      (by decide) (by decide)
      (ledgerInv_newRateLimiter 1 10 0 (by decide))
      (by decide)⟩

end Lumen

namespace Lumen

/-- C8: on a ledger in nondecreasing (oldest-first) order, the
element-by-element in-window filter performed by `allow` and `cleanup`
equals dropping the maximal prefix of timestamps not after
`windowStart`. -/
theorem claim_C8_filter_is_prefix_drop (windowStart : Int) (requests : List Int)
    (hsorted : requests.Pairwise (· ≤ ·)) :
    pruneLoop windowStart requests
        = requests.filter (fun t => decide (windowStart < t)) ∧
    pruneLoop windowStart requests
        = requests.dropWhile (fun t => decide (t ≤ windowStart)) :=
  ⟨pruneLoop_eq_filter windowStart requests,
    pruneLoop_eq_dropWhile windowStart requests hsorted⟩

theorem claim_C8_filter_is_prefix_drop_witness :
    ([1, 5, 7, 9] : List Int).Pairwise (· ≤ ·) ∧
    (pruneLoop 5 [1, 5, 7, 9]
        = ([1, 5, 7, 9] : List Int).filter (fun t => decide ((5:Int) < t)) ∧
      pruneLoop 5 [1, 5, 7, 9]
        = ([1, 5, 7, 9] : List Int).dropWhile (fun t => decide (t ≤ (5:Int)))) :=
  ⟨by decide, claim_C8_filter_is_prefix_drop 5 [1, 5, 7, 9] (by decide)⟩

end Lumen
